import Mathlib

/-!
Verification of the diffzip backup plugin against its specification.

Shallow embedding of the relevant source files:
* `src/util.ts`   : the `pieces` chunking generator.
* `src/main.ts`   : `createZip` (tombstones, scan loop, split & write, TOC
  update), `extract` (piece resolution), `loadTOC`.
* `src/storage.ts`: `StorageAccessor.readBinary/readTOC/writeBinary/writeTOC`
  (transparent encryption).
* `src/Archive.ts`: `Archiver._onProgress/_onError/_onAborted/_onFinalise`.

Bytes are modelled as `Nat`, byte buffers as `List Nat`.
-/

namespace DiffZip

/-- Concatenation of a list of byte buffers (the order-preserving join used
to state reconstruction properties). -/
def concatAll : List (List Nat) → List Nat
  | [] => []
  | chunk :: rest => chunk ++ concatAll rest

theorem concatAll_append (a b : List (List Nat)) :
    concatAll (a ++ b) = concatAll a ++ concatAll b := by
  induction a with
  | nil => simp [concatAll]
  | cons c cs ih => simp [concatAll, ih]

/-- JavaScript `source.slice(a, b)` for the non-negative indices reachable in
the `pieces` loop. -/
def sliceJS (source : List Nat) (a b : Int) : List Nat :=
  (source.drop a.toNat).take (b - a).toNat

/-- Fuel-indexed simulation of the generator loop in `pieces` (src/util.ts):
`while (offset < source.length) yield source.slice(offset, offset + chunkSize)`
followed by `offset += chunkSize`. `none` means the loop did not finish within
`fuel` iterations; `chunkSize` and `offset` are JavaScript numbers, modelled
as `Int`. -/
def piecesGo (source : List Nat) (chunkSize : Int) : Nat → Int → Option (List (List Nat))
  | 0, _ => none
  | fuel + 1, offset =>
    if offset < (source.length : Int) then
      (piecesGo source chunkSize fuel (offset + chunkSize)).map
        (fun rest => sliceJS source offset (offset + chunkSize) :: rest)
    else
      some []

/-- Structural denotation of `pieces` for a positive chunk size: the list of
chunks the generator yields. -/
def piecesList (source : List Nat) (chunkSize : Nat) : List (List Nat) :=
  if h : source = [] ∨ chunkSize = 0 then []
  else source.take chunkSize :: piecesList (source.drop chunkSize) chunkSize
termination_by source.length
decreasing_by
  push_neg at h
  obtain ⟨hs, hc⟩ := h
  simp only [List.length_drop]
  have h1 : 0 < source.length := List.length_pos.mpr hs
  have h2 : 0 < chunkSize := Nat.pos_of_ne_zero hc
  omega

theorem piecesList_nil (chunkSize : Nat) : piecesList [] chunkSize = [] := by
  rw [piecesList]; simp

theorem piecesList_cons (source : List Nat) (chunkSize : Nat)
    (hs : source ≠ []) (hc : chunkSize ≠ 0) :
    piecesList source chunkSize =
      source.take chunkSize :: piecesList (source.drop chunkSize) chunkSize := by
  rw [piecesList]
  simp [hs, hc]

/-- Concatenating the chunks of `piecesList` reproduces the source buffer. -/
theorem piecesList_concat (source : List Nat) (chunkSize : Nat) (hc : chunkSize ≠ 0) :
    concatAll (piecesList source chunkSize) = source := by
  generalize hn : source.length = n
  induction n using Nat.strong_induction_on generalizing source with
  | _ n ih =>
    by_cases hs : source = []
    · subst hs; simp [piecesList_nil, concatAll]
    · rw [piecesList_cons source chunkSize hs hc]
      have hlt : (source.drop chunkSize).length < n := by
        have h1 : 0 < source.length := List.length_pos.mpr hs
        have h2 : 0 < chunkSize := Nat.pos_of_ne_zero hc
        simp only [List.length_drop]
        omega
      rw [concatAll, ih _ hlt (source.drop chunkSize) rfl]
      exact List.take_append_drop chunkSize source

theorem piecesList_length (source : List Nat) (chunkSize : Nat) (hc : chunkSize ≠ 0) :
    (piecesList source chunkSize).length =
      (source.length + chunkSize - 1) / chunkSize := by
  generalize hn : source.length = n
  induction n using Nat.strong_induction_on generalizing source with
  | _ n ih =>
    subst hn
    have hcpos : 0 < chunkSize := Nat.pos_of_ne_zero hc
    by_cases hs : source = []
    · subst hs
      rw [piecesList_nil]
      simp only [List.length_nil, Nat.zero_add]
      exact (Nat.div_eq_of_lt (by omega)).symm
    · have hlen : 0 < source.length := List.length_pos.mpr hs
      have hlt : (source.drop chunkSize).length < source.length := by
        simp only [List.length_drop]; omega
      rw [piecesList_cons source chunkSize hs hc]
      simp only [List.length_cons]
      rw [ih _ hlt (source.drop chunkSize) rfl]
      simp only [List.length_drop]
      have e1 : source.length + chunkSize - 1 = (source.length - 1) + chunkSize := by
        omega
      rw [e1, Nat.add_div_right _ hcpos]
      by_cases hle : chunkSize ≤ source.length
      · have e2 : source.length - chunkSize + chunkSize - 1 = source.length - 1 := by
          omega
        rw [e2]
      · have e2 : source.length - chunkSize = 0 := by omega
        rw [e2]
        rw [Nat.div_eq_of_lt (by omega : 0 + chunkSize - 1 < chunkSize)]
        rw [Nat.div_eq_of_lt (by omega : source.length - 1 < chunkSize)]

theorem piecesList_chunk_le (source : List Nat) (chunkSize : Nat) :
    ∀ chunk ∈ piecesList source chunkSize, chunk.length ≤ chunkSize := by
  generalize hn : source.length = n
  induction n using Nat.strong_induction_on generalizing source with
  | _ n ih =>
    by_cases h : source = [] ∨ chunkSize = 0
    · rw [piecesList]
      simp [h]
    · push_neg at h
      obtain ⟨hs, hc⟩ := h
      have hlt : (source.drop chunkSize).length < n := by
        have h1 : 0 < source.length := List.length_pos.mpr hs
        have h2 : 0 < chunkSize := Nat.pos_of_ne_zero hc
        simp only [List.length_drop]
        omega
      rw [piecesList_cons source chunkSize hs hc]
      intro chunk hm
      rcases List.mem_cons.mp hm with hm | hm
      · subst hm
        exact (List.length_take _ _).le.trans (Nat.min_le_left _ _)
      · exact ih _ hlt (source.drop chunkSize) rfl chunk hm

/-- The fueled generator agrees with the structural denotation whenever the
chunk size is positive and the fuel covers the remaining bytes. -/
theorem piecesGo_eq_piecesList (source : List Nat) (c : Nat) (hc : 0 < c) :
    ∀ fuel off : Nat, source.length ≤ off + fuel →
      piecesGo source (c : Int) (fuel + 1) (off : Int) =
        some (piecesList (source.drop off) c) := by
  intro fuel
  induction fuel with
  | zero =>
    intro off hoff
    simp only [Nat.add_zero] at hoff
    rw [piecesGo]
    rw [if_neg (by omega : ¬ ((off : Int) < (source.length : Int)))]
    rw [List.drop_eq_nil_of_le hoff, piecesList_nil]
  | succ f ih =>
    intro off hoff
    rw [piecesGo]
    by_cases hlt : off < source.length
    · rw [if_pos (by omega : (off : Int) < (source.length : Int))]
      have hcast : (off : Int) + (c : Int) = ((off + c : Nat) : Int) := by push_cast; ring
      rw [hcast, ih (off + c) (by omega)]
      rw [Option.map_some']
      have hdf : source.drop off ≠ [] := by
        intro hnil
        have := List.drop_eq_nil_iff.mp hnil
        omega
      rw [piecesList_cons _ c hdf (by omega)]
      have hslice : sliceJS source (off : Int) ((off + c : Nat) : Int) =
          (source.drop off).take c := by
        unfold sliceJS
        have h1 : ((off : Nat) : Int).toNat = off := Int.toNat_natCast off
        have h2 : (((off + c : Nat) : Int) - (off : Int)).toNat = c := by
          push_cast
          omega
        rw [h1, h2]
      have hdrop : (source.drop off).drop c = source.drop (off + c) := by
        rw [List.drop_drop]
      rw [hslice, hdrop]
    · rw [if_neg (by omega : ¬ ((off : Int) < (source.length : Int)))]
      rw [List.drop_eq_nil_of_le (by omega), piecesList_nil]

/-- With a non-positive chunk size and a non-empty buffer the generator loop
never terminates: no amount of fuel completes it. -/
theorem piecesGo_nonpos_none (source : List Nat) (c : Int) (hc : c ≤ 0)
    (hs : source ≠ []) :
    ∀ fuel : Nat, ∀ off : Int, off ≤ 0 → piecesGo source c fuel off = none := by
  intro fuel
  induction fuel with
  | zero => intro off _; rfl
  | succ f ih =>
    intro off hoff
    have hlen : 0 < source.length := List.length_pos.mpr hs
    rw [piecesGo]
    rw [if_pos (by omega : off < (source.length : Int))]
    rw [ih (off + c) (by omega)]
    rfl

/-! ### Split piece naming (src/main.ts, createZip lines 350-365, extract 396-414) -/

/-- JavaScript `str.slice(-n)`: the last `n` characters of a string. -/
def lastChars (n : Nat) (s : String) : String :=
  String.mk ((s.data.reverse.take n).reverse)

/-- The 3-digit numeric suffix `` `00${count}`.slice(-3) `` used for
continuation pieces. -/
def suffix3 (count : Nat) : String :=
  lastChars 3 ("00" ++ toString count)

/-- The name of piece `idx` of archive `base`:
`${newFileName}${pieceCount == 0 ? "" : "." + `00${pieceCount}`.slice(-3)}`. -/
def pieceName (base : String) (idx : Nat) : String :=
  if idx = 0 then base else base ++ "." ++ suffix3 idx

/-- The names produced by the write loop: for the `i`-th chunk the counter
value is `start + i` (the counter is read before being incremented). -/
def planNames (base : String) (start n : Nat) : List String :=
  (List.range n).map (fun i => pieceName base (start + i))

/-- `const step = maxSize == 0 ? buf.byteLength + 1 : maxSize * 1024 * 1024`. -/
def stepOf (maxSize bufLen : Nat) : Nat :=
  if maxSize = 0 then bufLen + 1 else maxSize * 1024 * 1024

/-- The piece-writing stage of `createZip`: the sequence of
(output name, chunk) writes it performs for a finalized buffer `buf`.
`pieceCount` starts at 1 exactly when `buf.byteLength > step`. -/
def writePlan (maxSize : Nat) (base : String) (buf : List Nat) :
    List (String × List Nat) :=
  List.zip
    (planNames base (if stepOf maxSize buf.length < buf.length then 1 else 0)
      (piecesList buf (stepOf maxSize buf.length)).length)
    (piecesList buf (stepOf maxSize buf.length))

/-- The numbered-piece probing loop of `extract` (counter starts at 1, pieces
are collected while they exist, the loop stops at the first absent piece);
`fuel` bounds the number of probes. -/
def probeNumbered (ex : String → Bool) (zipPath : String) : Nat → Nat → List String
  | _, 0 => []
  | counter, fuel + 1 =>
    let piecePath := zipPath ++ "." ++ suffix3 counter
    if ex piecePath then piecePath :: probeNumbered ex zipPath (counter + 1) fuel
    else []

/-- Archive piece resolution in `extract`: if the unsuffixed name exists it is
used alone; otherwise numbered pieces are probed from `.001` upward. -/
def resolveArchiveFiles (ex : String → Bool) (zipPath : String) (fuel : Nat) :
    List String :=
  if ex zipPath then [zipPath] else probeNumbered ex zipPath 1 fuel

theorem planNames_length (base : String) (start n : Nat) :
    (planNames base start n).length = n := by
  simp [planNames]

theorem writePlan_fst (maxSize : Nat) (base : String) (buf : List Nat) :
    (writePlan maxSize base buf).map Prod.fst =
      planNames base (if stepOf maxSize buf.length < buf.length then 1 else 0)
        (piecesList buf (stepOf maxSize buf.length)).length := by
  unfold writePlan
  exact List.map_fst_zip _ _ (by rw [planNames_length])

theorem stepOf_pos_ne_zero (maxSize bufLen : Nat) (h : maxSize ≠ 0) :
    stepOf maxSize bufLen = maxSize * 1024 * 1024 := by
  unfold stepOf
  rw [if_neg h]

/-- When the buffer exceeds the step, the writer emits all pieces with
numeric suffixes starting from `.001`. -/
theorem writePlan_names_split (maxSize : Nat) (base : String) (buf : List Nat)
    (hms : maxSize ≠ 0) (hsplit : maxSize * 1024 * 1024 < buf.length) :
    (writePlan maxSize base buf).map Prod.fst =
      (List.range ((buf.length + maxSize * 1024 * 1024 - 1) / (maxSize * 1024 * 1024))).map
        (fun i => base ++ "." ++ suffix3 (i + 1)) := by
  have hstep : stepOf maxSize buf.length = maxSize * 1024 * 1024 :=
    stepOf_pos_ne_zero _ _ hms
  have hstepnz : maxSize * 1024 * 1024 ≠ 0 :=
    Nat.mul_ne_zero (Nat.mul_ne_zero hms (by decide)) (by decide)
  rw [writePlan_fst, hstep, if_pos hsplit, piecesList_length _ _ hstepnz]
  unfold planNames
  refine List.map_congr_left ?_
  intro i _
  unfold pieceName
  rw [if_neg (by omega : ¬ (1 + i = 0)), Nat.add_comm 1 i]

/-- When the (non-empty) buffer fits in a single positive step, the writer
emits exactly one unsuffixed piece. -/
theorem writePlan_names_single (maxSize : Nat) (base : String) (buf : List Nat)
    (hms : maxSize ≠ 0) (hpos : 0 < buf.length)
    (hfit : buf.length ≤ maxSize * 1024 * 1024) :
    (writePlan maxSize base buf).map Prod.fst = [base] := by
  have hstep : stepOf maxSize buf.length = maxSize * 1024 * 1024 :=
    stepOf_pos_ne_zero _ _ hms
  have hstepnz : maxSize * 1024 * 1024 ≠ 0 :=
    Nat.mul_ne_zero (Nat.mul_ne_zero hms (by decide)) (by decide)
  rw [writePlan_fst, hstep, if_neg (by omega), piecesList_length _ _ hstepnz]
  have hdiv : (buf.length + maxSize * 1024 * 1024 - 1) / (maxSize * 1024 * 1024) = 1 := by
    apply Nat.div_eq_of_lt_le <;> omega
  rw [hdiv]
  unfold planNames pieceName
  simp [List.range_succ]

/-- The probing loop collects exactly the consecutive existing numbered
pieces: if pieces `k ≤ j ≤ n` exist and piece `n+1` is absent, probing from
`k` returns pieces `k, k+1, …, n`. -/
theorem probeNumbered_collect (ex : String → Bool) (base : String) (n : Nat)
    (hex : ∀ k, 1 ≤ k → k ≤ n → ex (base ++ "." ++ suffix3 k) = true)
    (hstop : ex (base ++ "." ++ suffix3 (n + 1)) = false) :
    ∀ fuel k, 1 ≤ k → k ≤ n + 1 → n + 1 - k < fuel →
      probeNumbered ex base k fuel =
        (List.range (n + 1 - k)).map (fun i => base ++ "." ++ suffix3 (k + i)) := by
  intro fuel
  induction fuel with
  | zero => intro k _ _ hfuel; omega
  | succ f ih =>
    intro k hk1 hkn hfuel
    rw [probeNumbered]
    by_cases hkle : k ≤ n
    · rw [if_pos (hex k hk1 hkle)]
      rw [ih (k + 1) (by omega) (by omega) (by omega)]
      have hrange : n + 1 - k = (n - k) + 1 := by omega
      rw [hrange]
      have h2 : n + 1 - (k + 1) = n - k := by omega
      rw [h2, List.range_succ_eq_map]
      simp only [List.map_cons, Nat.add_zero, List.map_map]
      congr 1
      refine List.map_congr_left ?_
      intro i _
      simp only [Function.comp_apply]
      congr 2
      omega
    · have hkeq : k = n + 1 := by omega
      subst hkeq
      rw [if_neg (by simp [hstop])]
      simp

/-- Every split-piece name is strictly longer than the base name, so the base
name itself is never written when a split occurs. -/
theorem base_notMem_split_names (base : String) (n : Nat) :
    base ∉ (List.range n).map (fun i => base ++ "." ++ suffix3 (i + 1)) := by
  intro hmem
  obtain ⟨i, _, hi⟩ := List.mem_map.mp hmem
  have := congrArg String.length hi
  rw [String.length_append, String.length_append] at this
  have h1 : ("." : String).length = 1 := rfl
  omega

/-- Running the generator from offset 0 with a positive chunk size and enough
fuel yields exactly the structural chunk list. -/
theorem piecesGo_run (buf : List Nat) (s : Int) (hs : 1 ≤ s) :
    piecesGo buf s (buf.length + 1) 0 = some (piecesList buf s.toNat) := by
  have hpos : 0 < s.toNat := by omega
  have h0 := piecesGo_eq_piecesList buf s.toNat hpos buf.length 0 (by omega)
  rw [List.drop_zero] at h0
  have hc : ((s.toNat : Nat) : Int) = s := Int.toNat_of_nonneg (by omega)
  rw [hc, Nat.cast_zero] at h0
  exact h0

/-- C3: for every byte buffer and chunk size ≥ 1, concatenating in yield
order all chunks produced by the `pieces` generator reproduces the buffer. -/
theorem claim_C3_split_roundtrip (buf : List Nat) (s : Int) (h : 1 ≤ s) :
    ∃ out, piecesGo buf s (buf.length + 1) 0 = some out ∧ concatAll out = buf :=
  ⟨piecesList buf s.toNat, piecesGo_run buf s h,
    piecesList_concat buf s.toNat (by omega)⟩

theorem claim_C3_split_roundtrip_witness :
    1 ≤ (2 : Int) ∧
      ∃ out, piecesGo [1, 2, 3] 2 4 0 = some out ∧ concatAll out = [1, 2, 3] :=
  ⟨by decide, claim_C3_split_roundtrip [1, 2, 3] 2 (by decide)⟩

/-- C9: with chunk size ≥ 1 the `pieces` generator terminates, yielding
exactly ⌈length / chunkSize⌉ chunks each of length at most chunkSize; with
chunk size ≤ 0 and a non-empty buffer the loop never advances past the end,
so no amount of fuel makes it terminate. -/
theorem claim_C9_pieces_termination (buf : List Nat) (s : Int) :
    (1 ≤ s →
      piecesGo buf s (buf.length + 1) 0 = some (piecesList buf s.toNat) ∧
      (piecesList buf s.toNat).length = (buf.length + s.toNat - 1) / s.toNat ∧
      ∀ chunk ∈ piecesList buf s.toNat, chunk.length ≤ s.toNat) ∧
    (s ≤ 0 → buf ≠ [] → ∀ fuel, piecesGo buf s fuel 0 = none) := by
  constructor
  · intro hs
    exact ⟨piecesGo_run buf s hs, piecesList_length _ _ (by omega),
      piecesList_chunk_le _ _⟩
  · intro hs hbuf fuel
    exact piecesGo_nonpos_none buf s hs hbuf fuel 0 le_rfl

theorem claim_C9_pieces_termination_witness :
    (1 ≤ (2 : Int) ∧
      piecesGo [1, 2, 3, 4, 5] 2 6 0 = some (piecesList [1, 2, 3, 4, 5] (2 : Int).toNat)) ∧
    ((-1 : Int) ≤ 0 ∧ ([0] : List Nat) ≠ [] ∧ piecesGo [0] (-1) 7 0 = none) :=
  ⟨⟨by decide, ((claim_C9_pieces_termination [1, 2, 3, 4, 5] 2).1 (by decide)).1⟩,
   ⟨by decide, by decide, (claim_C9_pieces_termination [0] (-1)).2 (by decide) (by decide) 7⟩⟩

/-- C7: when the configured max output size is 0, the step becomes
`buf.byteLength + 1`, so any finalized (hence non-empty) buffer is written as
exactly one unsuffixed piece holding the whole buffer. -/
theorem claim_C7_maxsize_zero_single_piece (base : String) (buf : List Nat)
    (hbuf : buf ≠ []) :
    writePlan 0 base buf = [(base, buf)] := by
  have hlen : 0 < buf.length := List.length_pos.mpr hbuf
  have hstep : stepOf 0 buf.length = buf.length + 1 := by
    unfold stepOf
    rw [if_pos rfl]
  unfold writePlan
  rw [hstep, if_neg (by omega)]
  rw [piecesList_cons buf _ hbuf (by omega)]
  rw [List.take_of_length_le (by omega), List.drop_eq_nil_of_le (by omega),
    piecesList_nil]
  simp [planNames, pieceName, List.range_succ]

theorem claim_C7_maxsize_zero_single_piece_witness :
    ([1, 2, 3] : List Nat) ≠ [] ∧ writePlan 0 "n" [1, 2, 3] = [("n", [1, 2, 3])] :=
  ⟨by decide, claim_C7_maxsize_zero_single_piece "n" [1, 2, 3] (by decide)⟩

/-- C1 (counterexample): with max size 1 MB and a 3-piece buffer, the pieces
written are `name.001`, `name.002`, `name.003` — not `name`, `name.001`,
`name.002` as the claim states. -/
theorem claim_C1_counterexample :
    ¬ ((writePlan 1 "name" (List.replicate 2097153 0)).map Prod.fst =
        ["name", "name.001", "name.002"]) := by
  have hlen : (List.replicate 2097153 (0 : Nat)).length = 2097153 :=
    List.length_replicate _ _
  have h := writePlan_names_split 1 "name" (List.replicate 2097153 0)
    (by decide) (by rw [hlen]; decide)
  rw [h, hlen]
  decide

/-- C1 (amended): when the finalized buffer is split into n > 1 pieces, every
piece carries a 3-digit numeric suffix starting from 1 (`name.001` …,
no unsuffixed piece); a buffer that fits in the step is written as the single
unsuffixed piece. Single-file restore probes the unsuffixed name first and
uses it alone when present; otherwise it collects `.001`, `.002`, …
sequentially until one is absent, recovering exactly the pieces 1..n. -/
theorem claim_C1_piece_naming (maxSize : Nat) (base : String) (buf : List Nat)
    (hms : maxSize ≠ 0) :
    (maxSize * 1024 * 1024 < buf.length →
      (writePlan maxSize base buf).map Prod.fst =
        (List.range ((buf.length + maxSize * 1024 * 1024 - 1) / (maxSize * 1024 * 1024))).map
          (fun i => base ++ "." ++ suffix3 (i + 1)) ∧
      2 ≤ (writePlan maxSize base buf).length ∧
      base ∉ (writePlan maxSize base buf).map Prod.fst) ∧
    (0 < buf.length → buf.length ≤ maxSize * 1024 * 1024 →
      (writePlan maxSize base buf).map Prod.fst = [base]) ∧
    (∀ ex : String → Bool, ex base = true → ∀ fuel,
      resolveArchiveFiles ex base fuel = [base]) ∧
    (∀ (ex : String → Bool) (n : Nat), ex base = false →
      (∀ k, 1 ≤ k → k ≤ n → ex (base ++ "." ++ suffix3 k) = true) →
      ex (base ++ "." ++ suffix3 (n + 1)) = false →
      ∀ fuel, n < fuel →
        resolveArchiveFiles ex base fuel =
          (List.range n).map (fun i => base ++ "." ++ suffix3 (i + 1))) := by
  refine ⟨?_, ?_, ?_, ?_⟩
  · intro hsplit
    have hnames := writePlan_names_split maxSize base buf hms hsplit
    refine ⟨hnames, ?_, ?_⟩
    · have hlen := congrArg List.length hnames
      simp only [List.length_map, List.length_range] at hlen
      rw [hlen]
      rw [Nat.le_div_iff_mul_le (by omega)]
      omega
    · rw [hnames]
      exact base_notMem_split_names base _
  · intro hpos hfit
    exact writePlan_names_single maxSize base buf hms hpos hfit
  · intro ex hex fuel
    unfold resolveArchiveFiles
    rw [if_pos hex]
  · intro ex n hbase hex hstop fuel hfuel
    unfold resolveArchiveFiles
    rw [if_neg (by simp [hbase])]
    have h := probeNumbered_collect ex base n hex hstop fuel 1 le_rfl (by omega)
      (by omega)
    rw [h]
    have hn : n + 1 - 1 = n := by omega
    rw [hn]
    refine List.map_congr_left ?_
    intro i _
    rw [Nat.add_comm 1 i]

theorem claim_C1_piece_naming_witness :
    (1 : Nat) ≠ 0 ∧ 0 < ([7] : List Nat).length ∧
      ([7] : List Nat).length ≤ 1 * 1024 * 1024 ∧
      (writePlan 1 "n" [7]).map Prod.fst = ["n"] :=
  ⟨by decide, by decide, by decide,
    (claim_C1_piece_naming 1 "n" [7] (by decide)).2.1 (by decide) (by decide)⟩

/-! ### Data model (src/main.ts, `FileInfo` / `FileInfos`) -/

/-- One element of a `FileInfo.history` array. `missing` is an optional
boolean in the source; an absent field is falsy, so it is modelled as
`Bool` with default `false`. -/
structure HistoryItem where
  zipName : String
  modified : String
  missing : Bool
  processed : Option Nat
  digest : String
deriving DecidableEq

/-- A tracked file's record in the version history. -/
structure FileInfo where
  filename : String
  digest : String
  history : List HistoryItem
  mtime : Nat
  processed : Option Nat
  missing : Bool
deriving DecidableEq

/-- `FileInfos`: the TOC mapping path → record, modelled as an association
list in insertion order (JavaScript object key order). -/
def FileInfos := List (String × FileInfo)

instance : DecidableEq FileInfos := by
  unfold FileInfos
  infer_instance

/-- `toc[path]` lookup. -/
def tocFind (toc : FileInfos) (path : String) : Option FileInfo :=
  match toc with
  | [] => none
  | (k, v) :: rest => if k = path then some v else tocFind rest path

/-- `toc[path] = fi`: replace the existing binding or append a new one. -/
def tocSet (toc : FileInfos) (path : String) (fi : FileInfo) : FileInfos :=
  match toc with
  | [] => [(path, fi)]
  | (k, v) :: rest => if k = path then (path, fi) :: rest else (k, v) :: tocSet rest path fi

/-! ### Storage accessor encryption (src/storage.ts lines 26-95) -/

/-- The accessor variants (`StorageAccessorType`). -/
inductive StorageAccessorType where
  | normal
  | direct
  | external
  | s3
deriving DecidableEq

/-- The configuration of a `StorageAccessor` relevant to transparent
encryption: its backend variant, the `isLocal` binding to the live source
tree, and `settings.passphraseOfZip`. -/
structure Accessor where
  type : StorageAccessorType
  isLocal : Bool
  passphraseOfZip : String
deriving DecidableEq

/-- The guard `!this.isLocal && this.settings.passphraseOfZip` (a string is
truthy iff non-empty). -/
def useCipher (a : Accessor) : Bool :=
  !a.isLocal && a.passphraseOfZip != ""

/-- `readBinary`: read from the backend (without cache bypass), then decrypt
iff the cipher guard holds. `backendRead` abstracts `_readBinary` for one
fixed path; its argument is the `preventUseCache` flag. `dec` abstracts the
external `decryptCompatOpenSSL`. -/
def readBinaryModel (a : Accessor) (dec : List Nat → String → List Nat)
    (backendRead : Bool → Option (List Nat)) : Option (List Nat) :=
  match backendRead false with
  | none => none
  | some d => if useCipher a then some (dec d a.passphraseOfZip) else some d

/-- `readTOC`: on every backend but `"normal"` it delegates to `readBinary`;
on the `"normal"` backend it reads the backend directly with the cache-bypass
flag set (and performs no decryption). -/
def readTOCModel (a : Accessor) (dec : List Nat → String → List Nat)
    (backendRead : Bool → Option (List Nat)) : Option (List Nat) :=
  if a.type ≠ StorageAccessorType.normal then readBinaryModel a dec backendRead
  else backendRead true

/-- `writeBinary`: the payload handed to `_writeBinary` — the data encrypted
iff the cipher guard holds. `enc` abstracts `encryptCompatOpenSSL`. -/
def writeBinaryPayload (a : Accessor) (enc : List Nat → String → List Nat)
    (data : List Nat) : List Nat :=
  if useCipher a then enc data a.passphraseOfZip else data

/-- `writeTOC`: on every backend but `"normal"` it delegates to
`writeBinary`; on the `"normal"` backend it hands the raw data to
`_writeBinary`. -/
def writeTOCPayload (a : Accessor) (enc : List Nat → String → List Nat)
    (data : List Nat) : List Nat :=
  if a.type ≠ StorageAccessorType.normal then writeBinaryPayload a enc data
  else data

/-- C2 (counterexample): on the `"normal"` backend with a passphrase
configured and `isLocal = false`, `writeTOC` hands the backend the raw
(unencrypted) data even though encryption would have changed it, and
`readTOC` returns the backend bytes without decryption. -/
theorem claim_C2_counterexample :
    writeTOCPayload ⟨StorageAccessorType.normal, false, "p"⟩
        (fun d _ => 0 :: d) [1] = [1] ∧
    (fun (d : List Nat) (_ : String) => 0 :: d) [1] "p" ≠ [1] ∧
    readTOCModel ⟨StorageAccessorType.normal, false, "p"⟩
        (fun d _ => 0 :: d) (fun _ => some [5]) = some [5] ∧
    (fun (d : List Nat) (_ : String) => 0 :: d) [5] "p" ≠ [5] := by
  refine ⟨rfl, by decide, rfl, by decide⟩

/-- C2 (amended): with a passphrase configured and `isLocal = false`,
`writeBinary` encrypts before and `readBinary` decrypts after the backend
operation on every variant; `writeTOC`/`readTOC` do the same on every
variant except `"normal"`, where the TOC payload bypasses encryption and the
TOC read bypasses the local cache. -/
theorem claim_C2_transparent_encryption (a : Accessor)
    (enc dec : List Nat → String → List Nat)
    (backendRead : Bool → Option (List Nat)) (data d : List Nat)
    (hcipher : useCipher a = true) :
    (writeBinaryPayload a enc data = enc data a.passphraseOfZip) ∧
    (backendRead false = some d →
      readBinaryModel a dec backendRead = some (dec d a.passphraseOfZip)) ∧
    (a.type ≠ StorageAccessorType.normal →
      writeTOCPayload a enc data = enc data a.passphraseOfZip ∧
      (backendRead false = some d →
        readTOCModel a dec backendRead = some (dec d a.passphraseOfZip))) ∧
    (a.type = StorageAccessorType.normal →
      writeTOCPayload a enc data = data ∧
      readTOCModel a dec backendRead = backendRead true) := by
  refine ⟨?_, ?_, ?_, ?_⟩
  · unfold writeBinaryPayload
    rw [if_pos hcipher]
  · intro hread
    simp [readBinaryModel, hread, hcipher]
  · intro htype
    refine ⟨?_, ?_⟩
    · unfold writeTOCPayload writeBinaryPayload
      rw [if_pos htype, if_pos hcipher]
    · intro hread
      simp [readTOCModel, readBinaryModel, htype, hread, hcipher]
  · intro htype
    constructor
    · unfold writeTOCPayload
      rw [if_neg (by simp [htype])]
    · unfold readTOCModel
      rw [if_neg (by simp [htype])]

theorem claim_C2_transparent_encryption_witness :
    useCipher ⟨StorageAccessorType.s3, false, "p"⟩ = true ∧
    writeBinaryPayload ⟨StorageAccessorType.s3, false, "p"⟩
      (fun d _ => 0 :: d) [1] = (fun (d : List Nat) (_ : String) => 0 :: d) [1] "p" :=
  ⟨by decide,
    (claim_C2_transparent_encryption ⟨StorageAccessorType.s3, false, "p"⟩
      (fun d _ => 0 :: d) (fun d _ => d) (fun _ => none) [1] [] (by decide)).1⟩

/-! ### Archiver completion (src/Archive.ts lines 25-74) -/

/-- One invocation of the fflate progress callback:
`(error, data, final)`. -/
structure ZipCallback where
  err : Option String
  data : List Nat
  final : Bool
deriving DecidableEq

/-- The Archiver's observable state: the `_aborted` flag, the accumulated
`_output` chunks, and the state of `_zipFilePromise` (`none` = pending,
`Except.error` = rejected, `Except.ok` = resolved). -/
structure ArchiverState where
  aborted : Bool
  output : List (List Nat)
  settled : Option (Except String (List Nat))

/-- `promiseWithResolver` resolve: settles only a pending promise. -/
def resolveP (st : ArchiverState) (v : List Nat) : ArchiverState :=
  if st.settled.isSome then st else { st with settled := some (Except.ok v) }

/-- `promiseWithResolver` reject: settles only a pending promise. -/
def rejectP (st : ArchiverState) (e : String) : ArchiverState :=
  if st.settled.isSome then st else { st with settled := some (Except.error e) }

/-- The tail of `_onProgress` after the data push: an aborted archiver
rejects (`_onAborted`); a final callback resolves with the concatenation of
`_output` (`_onFinalise`); otherwise nothing further happens. -/
def archStep (st : ArchiverState) (final : Bool) : ArchiverState :=
  if st.aborted then rejectP st "Aborted"
  else if final then resolveP st (concatAll st.output)
  else st

/-- `Archiver._onProgress`: an error rejects (`_onError`); otherwise
non-empty data is appended to `_output` and then the abort/finalise checks
run. -/
def onProgress (st : ArchiverState) (err : Option String) (data : List Nat)
    (final : Bool) : ArchiverState :=
  match err with
  | some e => rejectP st e
  | none =>
    if 0 < data.length then archStep { st with output := st.output ++ [data] } final
    else archStep st final

/-- A fresh `Archiver`. -/
def initArchiver : ArchiverState := ⟨false, [], none⟩

/-- Feeding a sequence of progress callbacks to the archiver. -/
def runEvents : List ZipCallback → ArchiverState → ArchiverState
  | [], st => st
  | ev :: rest, st => runEvents rest (onProgress st ev.err ev.data ev.final)

theorem onProgress_ok_not_final (st : ArchiverState) (data : List Nat)
    (ha : st.aborted = false) :
    onProgress st none data false =
      if 0 < data.length then { st with output := st.output ++ [data] } else st := by
  unfold onProgress archStep
  by_cases hd : 0 < data.length <;> simp [hd, ha]

theorem runEvents_append_one (l : List ZipCallback) (e : ZipCallback) :
    ∀ st, runEvents (l ++ [e]) st = onProgress (runEvents l st) e.err e.data e.final := by
  induction l with
  | nil =>
    intro st
    rw [List.nil_append, runEvents, runEvents, runEvents]
  | cons x xs ih =>
    intro st
    rw [List.cons_append, runEvents, runEvents, ih]

/-- Running error-free, non-final callbacks on an unaborted, pending
archiver keeps it pending and unaborted and appends exactly the pushed
bytes. -/
theorem runEvents_progress (pre : List ZipCallback)
    (hpre : ∀ ev ∈ pre, ev.err = none ∧ ev.final = false) :
    ∀ st : ArchiverState, st.aborted = false →
      (runEvents pre st).aborted = false ∧
      (runEvents pre st).settled = st.settled ∧
      concatAll (runEvents pre st).output =
        concatAll st.output ++ concatAll (pre.map ZipCallback.data) := by
  induction pre with
  | nil =>
    intro st ha
    simp [runEvents, concatAll, ha]
  | cons ev rest ih =>
    intro st ha
    obtain ⟨herr, hfin⟩ := hpre ev (List.mem_cons_self _ _)
    have hrest : ∀ e ∈ rest, e.err = none ∧ e.final = false := fun e he =>
      hpre e (List.mem_cons_of_mem _ he)
    rw [runEvents, herr, hfin, onProgress_ok_not_final st ev.data ha]
    by_cases hd : 0 < ev.data.length
    · rw [if_pos hd]
      obtain ⟨h1, h2, h3⟩ := ih hrest { st with output := st.output ++ [ev.data] } ha
      refine ⟨h1, h2, ?_⟩
      rw [h3]
      simp only [concatAll_append, List.map_cons, concatAll]
      simp [concatAll]
    · rw [if_neg hd]
      obtain ⟨h1, h2, h3⟩ := ih hrest st ha
      refine ⟨h1, h2, ?_⟩
      rw [h3]
      have hde : ev.data = [] := by
        cases hdata : ev.data with
        | nil => rfl
        | cons x xs => rw [hdata] at hd; simp at hd
      simp [List.map_cons, concatAll, hde]

/-- C8: an internal codec error rejects the pending result; a progress
callback on an aborted archiver rejects it; an error-free, unaborted run
whose callbacks end with the single final one leaves the promise pending
until finalization and then resolves it with the concatenation of all
emitted output chunks. -/
theorem claim_C8_archiver_promise :
    (∀ (st : ArchiverState) (e : String) (d : List Nat) (f : Bool),
      st.settled = none →
      (onProgress st (some e) d f).settled = some (Except.error e)) ∧
    (∀ (st : ArchiverState) (d : List Nat) (f : Bool),
      st.settled = none → st.aborted = true →
      (onProgress st none d f).settled = some (Except.error "Aborted")) ∧
    (∀ (pre : List ZipCallback) (last : ZipCallback),
      (∀ ev ∈ pre, ev.err = none ∧ ev.final = false) →
      last.err = none → last.final = true →
      (runEvents pre initArchiver).settled = none ∧
      (runEvents (pre ++ [last]) initArchiver).settled =
        some (Except.ok (concatAll ((pre ++ [last]).map ZipCallback.data)))) := by
  refine ⟨?_, ?_, ?_⟩
  · intro st e d f hpending
    simp [onProgress, rejectP, hpending]
  · intro st d f hpending haborted
    by_cases hd : 0 < d.length <;>
      simp [onProgress, archStep, rejectP, hd, haborted, hpending]
  · intro pre last hpre herr hfin
    obtain ⟨h1, h2, h3⟩ := runEvents_progress pre hpre initArchiver rfl
    have hpend : (runEvents pre initArchiver).settled = none := by
      rw [h2]
      rfl
    refine ⟨hpend, ?_⟩
    rw [runEvents_append_one pre last, herr, hfin]
    have hmap : concatAll ((pre ++ [last]).map ZipCallback.data) =
        concatAll (pre.map ZipCallback.data) ++ last.data := by
      rw [List.map_append, concatAll_append]
      simp [concatAll]
    have hout : concatAll (runEvents pre initArchiver).output =
        concatAll (pre.map ZipCallback.data) := by
      rw [h3]
      simp [initArchiver, concatAll]
    unfold onProgress archStep resolveP
    by_cases hd : 0 < last.data.length
    · rw [if_pos hd]
      simp only [h1, Bool.false_eq_true, if_false, if_true,
        hpend, Option.isSome_none]
      simp only [concatAll_append, hout, concatAll, hmap, List.append_nil]
    · have hde : last.data = [] := by
        cases hdata : last.data with
        | nil => rfl
        | cons x xs => rw [hdata] at hd; simp at hd
      rw [if_neg hd]
      simp only [h1, Bool.false_eq_true, if_false, if_true,
        hpend, Option.isSome_none]
      simp only [hout, hmap, hde, List.append_nil]

theorem claim_C8_archiver_promise_witness :
    (runEvents [⟨none, [1, 2], false⟩] initArchiver).settled = none ∧
    (runEvents [⟨none, [1, 2], false⟩, ⟨none, [3], true⟩] initArchiver).settled =
      some (Except.ok [1, 2, 3]) := by
  have h := claim_C8_archiver_promise.2.2 [⟨none, [1, 2], false⟩] ⟨none, [3], true⟩
    (by decide) rfl rfl
  exact ⟨h.1, h.2.trans rfl⟩

/-! ### TOC loading (src/main.ts, loadTOC lines 197-238) -/

/-- Outcome of decoding + `parseYaml` on the TOC bytes: a parsed document, a
null result, or a thrown exception (also covering an exception escaping
`readTOC` inside the same `try`). -/
inductive ParseOutcome where
  | parsed (toc : FileInfos)
  | nullDoc
  | threw

/-- `loadTOC`: `toc` starts as `{}`; when the TOC file exists its bytes are
read (`none` models `tocBin == null || tocBin === false`, which returns `{}`)
and parsed; a null parse or a caught exception leaves `{}`. -/
def loadTOC (tocExist : Bool) (readResult : Option (List Nat))
    (parse : List Nat → ParseOutcome) : FileInfos :=
  if tocExist then
    match readResult with
    | none => []
    | some bin =>
      match parse bin with
      | ParseOutcome.parsed toc => toc
      | ParseOutcome.nullDoc => []
      | ParseOutcome.threw => []
  else []

/-- C10: `loadTOC` is total over its failure cases — an absent TOC file,
unreadable bytes, and unparseable contents each produce the empty mapping
instead of an error, and a successful parse returns the parsed mapping. -/
theorem claim_C10_loadTOC_total (tocExist : Bool) (readResult : Option (List Nat))
    (parse : List Nat → ParseOutcome) :
    (tocExist = false → loadTOC tocExist readResult parse = []) ∧
    (readResult = none → loadTOC tocExist readResult parse = []) ∧
    (∀ bin, readResult = some bin →
      (parse bin = ParseOutcome.nullDoc ∨ parse bin = ParseOutcome.threw) →
      loadTOC tocExist readResult parse = []) ∧
    (∀ bin toc, tocExist = true → readResult = some bin →
      parse bin = ParseOutcome.parsed toc →
      loadTOC tocExist readResult parse = toc) := by
  refine ⟨?_, ?_, ?_, ?_⟩
  · intro h
    simp [loadTOC, h]
  · intro h
    cases tocExist <;> simp [loadTOC, h]
  · intro bin hread hparse
    cases tocExist
    · simp [loadTOC]
    · rcases hparse with hp | hp <;> simp [loadTOC, hread, hp]
  · intro bin toc hexist hread hparse
    simp [loadTOC, hexist, hread, hparse]

theorem claim_C10_loadTOC_total_witness :
    (false = false → loadTOC false none (fun _ => ParseOutcome.threw) = []) ∧
    loadTOC false none (fun _ => ParseOutcome.threw) = [] :=
  ⟨fun _ => (claim_C10_loadTOC_total false none (fun _ => ParseOutcome.threw)).1 rfl,
    (claim_C10_loadTOC_total false none (fun _ => ParseOutcome.threw)).1 rfl⟩

/-! ### Tombstones (src/main.ts, createZip lines 260-275) -/

/-- Processing of one TOC entry by the missing-files loop: a record already
flagged missing is skipped; an existing file is skipped; with `skipDeleted`
the record is left alone; otherwise the record is tombstoned — `missing` set,
digest cleared, `mtime`/`processed` stamped, and one missing history entry
appended — and the missing counter increments. -/
def tombstoneEntry (skipDeleted : Bool) (fileExists : Bool) (now : Nat)
    (nowISO : String) (zipName : String) (fi : FileInfo) : FileInfo × Nat :=
  if fi.missing then (fi, 0)
  else if fileExists then (fi, 0)
  else if skipDeleted then (fi, 0)
  else
    ({ fi with
        missing := true
        digest := ""
        mtime := now
        processed := some now
        history := fi.history ++ [⟨zipName, nowISO, true, some now, ""⟩] }, 1)

/-- The whole missing-files loop over the TOC: each record is processed by
`tombstoneEntry` against the live-existence predicate (composed with
`normalizePath`), and the missing counts are summed. -/
def tombstonePass (skipDeleted : Bool) (exPred : String → Bool) (now : Nat)
    (nowISO : String) (zipName : String) : FileInfos → FileInfos × Nat
  | [] => ([], 0)
  | (path, fi) :: rest =>
    let r := tombstoneEntry skipDeleted (exPred path) now nowISO zipName fi
    let rr := tombstonePass skipDeleted exPred now nowISO zipName rest
    ((path, r.1) :: rr.1, r.2 + rr.2)

/-- C4: with tombstoning enabled (`skipDeleted = false`), a record not yet
flagged missing whose source file is absent gets exactly one appended
history entry with `missing = true` and empty digest, its digest cleared and
its missing flag set, counting one missing file; a record already flagged
missing is left untouched by any pass, so the tombstoned record receives no
further tombstone entries later. -/
theorem claim_C4_tombstone_once (now : Nat) (nowISO : String) (zipName : String)
    (fi : FileInfo) (hnm : fi.missing = false) :
    ((tombstoneEntry false false now nowISO zipName fi).1.history =
        fi.history ++ [⟨zipName, nowISO, true, some now, ""⟩]) ∧
    (tombstoneEntry false false now nowISO zipName fi).1.digest = "" ∧
    (tombstoneEntry false false now nowISO zipName fi).1.missing = true ∧
    (tombstoneEntry false false now nowISO zipName fi).2 = 1 ∧
    (∀ (fi' : FileInfo), fi'.missing = true →
      ∀ (skipDeleted2 exists2 : Bool) (later : Nat) (laterISO zipName2 : String),
        tombstoneEntry skipDeleted2 exists2 later laterISO zipName2 fi' = (fi', 0)) ∧
    (∀ (skipDeleted2 exists2 : Bool) (later : Nat) (laterISO zipName2 : String),
      tombstoneEntry skipDeleted2 exists2 later laterISO zipName2
          (tombstoneEntry false false now nowISO zipName fi).1 =
        ((tombstoneEntry false false now nowISO zipName fi).1, 0)) := by
  have hmissing : ∀ (fi' : FileInfo), fi'.missing = true →
      ∀ (sd ex2 : Bool) (later : Nat) (laterISO zipName2 : String),
        tombstoneEntry sd ex2 later laterISO zipName2 fi' = (fi', 0) := by
    intro fi' hm sd ex2 later laterISO zipName2
    unfold tombstoneEntry
    rw [if_pos hm]
  refine ⟨?_, ?_, ?_, ?_, hmissing, ?_⟩ <;>
    simp [tombstoneEntry, hnm]

theorem claim_C4_tombstone_once_witness :
    (⟨"a.md", "d0", [], 5, none, false⟩ : FileInfo).missing = false ∧
    (tombstoneEntry false false 9 "iso" "z.zip"
        ⟨"a.md", "d0", [], 5, none, false⟩).1.history =
      [] ++ [⟨"z.zip", "iso", true, some 9, ""⟩] :=
  ⟨rfl, (claim_C4_tombstone_once 9 "iso" "z.zip"
    ⟨"a.md", "d0", [], 5, none, false⟩ rfl).1⟩

/-! ### The scan loop (src/main.ts, createZip lines 285-343) -/

/-- `onlyNew && path in toc && new Date(stat.mtime).getTime() <= entry.mtime`. -/
def skipOlder (onlyNew : Bool) (toc : FileInfos) (path : String) (mtime : Nat) : Bool :=
  onlyNew && (match tocFind toc path with
    | some entry => decide (mtime ≤ entry.mtime)
    | none => false)

/-- `path in toc && toc[path].digest == digest`. -/
def sameDigest (toc : FileInfos) (path : String) (digest : String) : Bool :=
  match tocFind toc path with
  | some entry => entry.digest == digest
  | none => false

/-- `toc[path]?.history ?? []`. -/
def prevHistory (toc : FileInfos) (path : String) : List HistoryItem :=
  match tocFind toc path with
  | some entry => entry.history
  | none => []

/-- Result of processing one live path in the scan loop: the TOC afterwards,
the archive entry fed to `zip.addFile` (if admitted), and whether
`readBinary` was invoked. -/
structure ScanResult where
  toc : FileInfos
  entry : Option (String × List Nat × Nat)
  didRead : Bool

/-- One iteration of the scan loop for a live path: a failed `stat` skips;
with "only new" a file whose mtime is ≤ the recorded mtime is skipped
*before* `readBinary`; a failed read skips; an unchanged digest skips;
otherwise the record is rewritten (digest, mtime, processed, appended
history entry) and the file is admitted to the archive. `stat` carries the
mtime; `content` the bytes `readBinary` would deliver. -/
def scanFile (onlyNew : Bool) (digestFn : List Nat → String) (now : Nat)
    (isoOf : Nat → String) (zipName : String) (toc : FileInfos) (path : String)
    (stat : Option Nat) (content : Option (List Nat)) : ScanResult :=
  match stat with
  | none => ⟨toc, none, false⟩
  | some mtime =>
    if skipOlder onlyNew toc path mtime then ⟨toc, none, false⟩
    else
      match content with
      | none => ⟨toc, none, true⟩
      | some f =>
        if sameDigest toc path (digestFn f) then ⟨toc, none, true⟩
        else
          ⟨tocSet toc path
            { filename := path
              digest := digestFn f
              history := prevHistory toc path ++
                [⟨zipName, isoOf mtime, false, some now, digestFn f⟩]
              mtime := mtime
              processed := some now
              missing := false },
            some (path, f, mtime), true⟩

/-- The scan loop over all live paths, with the `maxFilesInZip` early break
(`maxFilesInZip > 0 && zipped >= maxFilesInZip` tested after admitting). -/
def scanLoop (onlyNew : Bool) (maxFiles : Nat) (digestFn : List Nat → String)
    (now : Nat) (isoOf : Nat → String) (zipName : String) :
    List (String × Option Nat × Option (List Nat)) → FileInfos → Nat →
      FileInfos × List (String × List Nat × Nat) × Nat
  | [], toc, zipped => (toc, [], zipped)
  | (path, stat, content) :: rest, toc, zipped =>
    let r := scanFile onlyNew digestFn now isoOf zipName toc path stat content
    match r.entry with
    | none => scanLoop onlyNew maxFiles digestFn now isoOf zipName rest r.toc zipped
    | some e =>
      if 0 < maxFiles ∧ maxFiles ≤ zipped + 1 then (r.toc, [e], zipped + 1)
      else
        ((scanLoop onlyNew maxFiles digestFn now isoOf zipName rest r.toc (zipped + 1)).1,
          e :: (scanLoop onlyNew maxFiles digestFn now isoOf zipName rest r.toc (zipped + 1)).2.1,
          (scanLoop onlyNew maxFiles digestFn now isoOf zipName rest r.toc (zipped + 1)).2.2)

/-- The whole backup pass reduced to its destination writes: the tombstone
loop, the scan loop, the `zipped == 0 && missingFiles == 0` early return, and
otherwise the split piece writes plus the TOC write. `finalize` abstracts
the archive codec producing the finalized buffer from the admitted entries
and the embedded TOC snapshot. -/
def createZipModel (skipDeleted onlyNew : Bool) (maxFiles maxSize : Nat)
    (exPred : String → Bool) (digestFn : List Nat → String)
    (finalize : List (String × List Nat × Nat) → FileInfos → List Nat)
    (now : Nat) (nowISO : String) (isoOf : Nat → String) (zipName : String)
    (toc0 : FileInfos) (files : List (String × Option Nat × Option (List Nat))) :
    List (String × List Nat) × Option FileInfos :=
  if (scanLoop onlyNew maxFiles digestFn now isoOf zipName files
        (tombstonePass skipDeleted exPred now nowISO zipName toc0).1 0).2.2 = 0 ∧
      (tombstonePass skipDeleted exPred now nowISO zipName toc0).2 = 0 then
    ([], none)
  else
    (writePlan maxSize zipName
        (finalize
          (scanLoop onlyNew maxFiles digestFn now isoOf zipName files
            (tombstonePass skipDeleted exPred now nowISO zipName toc0).1 0).2.1
          (scanLoop onlyNew maxFiles digestFn now isoOf zipName files
            (tombstonePass skipDeleted exPred now nowISO zipName toc0).1 0).1),
      some (scanLoop onlyNew maxFiles digestFn now isoOf zipName files
        (tombstonePass skipDeleted exPred now nowISO zipName toc0).1 0).1)

/-- C6: with "only new", a live path with a record whose stat mtime is ≤ the
recorded mtime is skipped: `readBinary` is not invoked (the result does not
even depend on the would-be content) and the TOC is unchanged. -/
theorem claim_C6_only_new_skips_unchanged (digestFn : List Nat → String)
    (now : Nat) (isoOf : Nat → String) (zipName : String) (toc : FileInfos)
    (path : String) (mtime : Nat) (entry : FileInfo)
    (hfind : tocFind toc path = some entry) (hm : mtime ≤ entry.mtime) :
    ∀ content, scanFile true digestFn now isoOf zipName toc path (some mtime) content =
      ⟨toc, none, false⟩ := by
  intro content
  have hskip : skipOlder true toc path mtime = true := by
    unfold skipOlder
    rw [hfind]
    simp [hm]
  simp [scanFile, hskip]

theorem claim_C6_only_new_skips_unchanged_witness :
    tocFind [("a.md", ⟨"a.md", "d1", [], 10, none, false⟩)] "a.md" =
      some ⟨"a.md", "d1", [], 10, none, false⟩ ∧
    (5 : Nat) ≤ 10 ∧
    scanFile true (fun _ => "") 99 (fun _ => "") "z.zip"
        [("a.md", ⟨"a.md", "d1", [], 10, none, false⟩)] "a.md" (some 5) (some [1]) =
      ⟨[("a.md", ⟨"a.md", "d1", [], 10, none, false⟩)], none, false⟩ :=
  ⟨rfl, by decide,
    claim_C6_only_new_skips_unchanged (fun _ => "") 99 (fun _ => "") "z.zip"
      [("a.md", ⟨"a.md", "d1", [], 10, none, false⟩)] "a.md" 5
      ⟨"a.md", "d1", [], 10, none, false⟩ rfl (by decide) (some [1])⟩

theorem tombstoneEntry_count_zero (skipDeleted fileExists : Bool) (now : Nat)
    (nowISO zipName : String) (fi : FileInfo)
    (h : (tombstoneEntry skipDeleted fileExists now nowISO zipName fi).2 = 0) :
    (tombstoneEntry skipDeleted fileExists now nowISO zipName fi).1 = fi := by
  unfold tombstoneEntry at h ⊢
  by_cases h1 : fi.missing = true
  · rw [if_pos h1]
  · rw [if_neg h1] at h ⊢
    by_cases h2 : fileExists = true
    · rw [if_pos h2]
    · rw [if_neg h2] at h ⊢
      by_cases h3 : skipDeleted = true
      · rw [if_pos h3]
      · rw [if_neg h3] at h
        simp at h

theorem tombstonePass_count_zero (skipDeleted : Bool) (exPred : String → Bool)
    (now : Nat) (nowISO zipName : String) :
    ∀ toc : FileInfos, (tombstonePass skipDeleted exPred now nowISO zipName toc).2 = 0 →
      (tombstonePass skipDeleted exPred now nowISO zipName toc).1 = toc := by
  intro toc
  induction toc with
  | nil => intro _; rfl
  | cons kv rest ih =>
    obtain ⟨path, fi⟩ := kv
    intro h
    rw [tombstonePass] at h ⊢
    simp only at h ⊢
    have h1 : (tombstoneEntry skipDeleted (exPred path) now nowISO zipName fi).2 = 0 := by
      omega
    have h2 : (tombstonePass skipDeleted exPred now nowISO zipName rest).2 = 0 := by
      omega
    rw [tombstoneEntry_count_zero _ _ _ _ _ _ h1, ih h2]

theorem scanFile_entry_none (onlyNew : Bool) (digestFn : List Nat → String)
    (now : Nat) (isoOf : Nat → String) (zipName : String) (toc : FileInfos)
    (path : String) (stat : Option Nat) (content : Option (List Nat))
    (h : (scanFile onlyNew digestFn now isoOf zipName toc path stat content).entry = none) :
    (scanFile onlyNew digestFn now isoOf zipName toc path stat content).toc = toc := by
  cases stat with
  | none => rfl
  | some mtime =>
    by_cases h1 : skipOlder onlyNew toc path mtime = true
    · simp [scanFile, h1]
    · cases content with
      | none => simp [scanFile, h1]
      | some f =>
        by_cases h2 : sameDigest toc path (digestFn f) = true
        · simp [scanFile, h1, h2]
        · exfalso
          simp [scanFile, h1, h2] at h

theorem scanLoop_zipped_le (onlyNew : Bool) (maxFiles : Nat)
    (digestFn : List Nat → String) (now : Nat) (isoOf : Nat → String)
    (zipName : String) :
    ∀ (files : List (String × Option Nat × Option (List Nat))) (toc : FileInfos)
      (zipped : Nat),
      zipped ≤ (scanLoop onlyNew maxFiles digestFn now isoOf zipName files toc zipped).2.2 := by
  intro files
  induction files with
  | nil => intro toc zipped; exact le_rfl
  | cons f rest ih =>
    obtain ⟨path, stat, content⟩ := f
    intro toc zipped
    simp only [scanLoop]
    split
    · exact ih _ _
    · split
      · simp
      · exact le_trans (by omega) (ih _ _)

theorem scanLoop_zero (onlyNew : Bool) (maxFiles : Nat)
    (digestFn : List Nat → String) (now : Nat) (isoOf : Nat → String)
    (zipName : String) :
    ∀ (files : List (String × Option Nat × Option (List Nat))) (toc : FileInfos)
      (zipped : Nat),
      (scanLoop onlyNew maxFiles digestFn now isoOf zipName files toc zipped).2.2 = zipped →
      (scanLoop onlyNew maxFiles digestFn now isoOf zipName files toc zipped).1 = toc ∧
      (scanLoop onlyNew maxFiles digestFn now isoOf zipName files toc zipped).2.1 = [] := by
  intro files
  induction files with
  | nil => intro toc zipped _; exact ⟨rfl, rfl⟩
  | cons f rest ih =>
    obtain ⟨path, stat, content⟩ := f
    intro toc zipped h
    simp only [scanLoop] at h ⊢
    rcases hentry : (scanFile onlyNew digestFn now isoOf zipName toc path stat content).entry with _ | e
    · simp only [hentry] at h ⊢
      have htoc := scanFile_entry_none onlyNew digestFn now isoOf zipName toc path
        stat content hentry
      rw [htoc] at h ⊢
      exact ih toc zipped h
    · simp only [hentry] at h ⊢
      by_cases hb : 0 < maxFiles ∧ maxFiles ≤ zipped + 1
      · rw [if_pos hb] at h
        simp at h
      · rw [if_neg hb] at h
        have := scanLoop_zipped_le onlyNew maxFiles digestFn now isoOf zipName rest
          (scanFile onlyNew digestFn now isoOf zipName toc path stat content).toc
          (zipped + 1)
        simp only at h
        omega

/-- C5: a pass admitting zero files and creating zero tombstones writes
nothing — no archive piece, no TOC write — and the in-memory TOC is exactly
the loaded one. -/
theorem claim_C5_no_change_writes_nothing (skipDeleted onlyNew : Bool)
    (maxFiles maxSize : Nat) (exPred : String → Bool)
    (digestFn : List Nat → String)
    (finalize : List (String × List Nat × Nat) → FileInfos → List Nat)
    (now : Nat) (nowISO : String) (isoOf : Nat → String) (zipName : String)
    (toc0 : FileInfos) (files : List (String × Option Nat × Option (List Nat)))
    (hmiss : (tombstonePass skipDeleted exPred now nowISO zipName toc0).2 = 0)
    (hzip : (scanLoop onlyNew maxFiles digestFn now isoOf zipName files
        (tombstonePass skipDeleted exPred now nowISO zipName toc0).1 0).2.2 = 0) :
    createZipModel skipDeleted onlyNew maxFiles maxSize exPred digestFn finalize
        now nowISO isoOf zipName toc0 files = ([], none) ∧
    (scanLoop onlyNew maxFiles digestFn now isoOf zipName files
        (tombstonePass skipDeleted exPred now nowISO zipName toc0).1 0).1 = toc0 := by
  constructor
  · unfold createZipModel
    rw [if_pos ⟨hzip, hmiss⟩]
  · have htomb := tombstonePass_count_zero skipDeleted exPred now nowISO zipName toc0 hmiss
    have hscan := (scanLoop_zero onlyNew maxFiles digestFn now isoOf zipName files
      (tombstonePass skipDeleted exPred now nowISO zipName toc0).1 0 hzip).1
    rw [hscan, htomb]

theorem claim_C5_no_change_writes_nothing_witness :
    (tombstonePass false (fun _ => true) 9 "iso" "z.zip" []).2 = 0 ∧
    (scanLoop false 0 (fun _ => "") 9 (fun _ => "") "z.zip" []
        (tombstonePass false (fun _ => true) 9 "iso" "z.zip" []).1 0).2.2 = 0 ∧
    createZipModel false false 0 30 (fun _ => true) (fun _ => "")
        (fun _ _ => []) 9 "iso" (fun _ => "") "z.zip" [] [] = ([], none) :=
  ⟨rfl, rfl,
    (claim_C5_no_change_writes_nothing false false 0 30 (fun _ => true)
      (fun _ => "") (fun _ _ => []) 9 "iso" (fun _ => "") "z.zip" [] [] rfl rfl).1⟩

end DiffZip
